import Mathlib

/-!
# Verification of the DevDocs documentation catalog / search / read core

Shallow embedding of `src/devdocs_mcp_server/server.py` (class `DevDocsManager`).

Filesystem model: the manager only observes the documentation tree through
  * `docs_dir.exists()`,
  * `docs_dir.iterdir()` (immediate children, with `is_dir()` and name),
  * `doc_dir.rglob("*.html")` per immediate subdirectory,
  * `docs_dir.rglob("*.html")` (all HTML files, recursively),
  * `(docs_dir / path).exists()` / `.is_file()` for a caller-supplied path,
  * reading a file's text content.
We model a documentation tree as the list of its immediate children
(`TopEntry`, in `iterdir` order), each directory child carrying the list of
HTML files found below it (in `rglob` discovery order).  Deeper non-HTML
nodes are not represented; no operation of the manager observes them.

The fuzzy scorer (`rapidfuzz.fuzz.WRatio`, an external dependency) is a
parameter `scorer : String → String → Nat`; per the RapidFuzz contract and
the spec's §4.3 it returns scores on a 0–100 scale (100 = exact match).
`process.extract` / `process.extractOne` are modelled from that documented
contract (§4.3): every candidate is scored, candidates are ordered by score
descending with ties broken by input position (stable), and at most `limit`
of them are returned; `extractOne` returns the single best match (first on
ties), or nothing when the candidate list is empty.

Python's stable `list.sort(key=..., reverse=True)` and `sorted(...)` are
modelled by a structural stable insertion sort (`insSort`), which computes
the same output as any stable sort.

String primitives (`str.replace`, `str.lower`, `str.split`, `Path.stem`,
prefix/suffix tests) are implemented over `List Char` so that concrete
instances evaluate inside the kernel.
-/

/-- One HTML documentation file: path relative to the docs root, and its
raw text content. -/
structure DocFile where
  rel : String
  content : String
deriving DecidableEq, Repr

/-- An immediate child of the docs root, as seen by `iterdir()`: its name,
whether it is a directory, its content when it is a file, and — when it is a
directory — the HTML files found below it by `rglob("*.html")`, in discovery
order.  For a non-directory child, `files = []`. -/
structure TopEntry where
  name : String
  isDir : Bool
  content : String
  files : List DocFile
deriving DecidableEq, Repr

/-- The documentation tree: whether the root exists, and its immediate
children in `iterdir` order. -/
structure FS where
  rootExists : Bool
  top : List TopEntry
deriving DecidableEq, Repr

/-! ## String primitives (kernel-computable models of the Python ones) -/

/-- `str.lower()` (ASCII case folding, which is all the manager relies on). -/
def lowerStr (s : String) : String :=
  String.mk (s.data.map Char.toLower)

/-- `s.startswith(p)`. -/
def startsWithStr (s p : String) : Bool :=
  p.data.isPrefixOf s.data

/-- `s.endswith(p)`. -/
def endsWithStr (s p : String) : Bool :=
  p.data.isSuffixOf s.data

/-- Split a character list at every character satisfying `p`, keeping empty
pieces (the behaviour of Python's `str.split(sep)` for one separator). -/
def splitBy (p : Char → Bool) : List Char → List (List Char)
  | [] => [[]]
  | c :: t =>
    match splitBy p t with
    | [] => [[]]
    | h :: r => if p c then [] :: h :: r else (c :: h) :: r

/-- Python `str.split()` with no argument: split on whitespace runs and
discard empty pieces. -/
def pySplitWs (s : String) : List String :=
  ((splitBy Char.isWhitespace s.data).filter (fun t => !t.isEmpty)).map String.mk

/-- The final component of a relative path (after the last `/`). -/
def baseName (rel : String) : String :=
  String.mk ((splitBy (fun c => c = '/') rel.data).getLastD rel.data)

/-- Index of the last `.` in a character list, if any. -/
def lastDotPos : List Char → Option Nat
  | [] => none
  | c :: t =>
    match lastDotPos t with
    | some i => some (i + 1)
    | none => if c = '.' then some 0 else none

/-- `Path(rel).stem`: the final path component minus its last suffix, where a
dot in first or last position of the component does not start a suffix
(pathlib: the suffix is nonempty only when `0 < i < len(name) - 1`). -/
def stemOf (rel : String) : String :=
  let name := baseName rel
  let cs := name.data
  match lastDotPos cs with
  | none => name
  | some i => if 0 < i ∧ i < cs.length - 1 then String.mk (cs.take i) else name

/-- `DevDocsManager._normalize_stem`: replace every dot of the stem by a
space (`stem.replace(".", " ")`, a character-wise replacement since the
pattern is a single character). -/
def normalize_stem (stem : String) : String :=
  String.mk (stem.data.map (fun c => if c = '.' then ' ' else c))

/-- Python list slicing `l[:n]` for an `int` bound `n`: the first `n`
elements when `n ≥ 0`, everything but the last `-n` elements when `n < 0`. -/
def pySlice {α : Type} (l : List α) (n : Int) : List α :=
  if 0 ≤ n then l.take n.toNat
  else l.take (l.length - (-n).toNat)

/-- Truthiness of an optional string argument (Python `if doc_set:`):
`None` and the empty string are falsy. -/
def optTruthy : Option String → Bool
  | none => false
  | some s => !s.data.isEmpty

/-! ## Stable sorting (model of Python's stable sorts) -/

/-- Insert `a` in front of the first element `b` with `le a b` (all elements
before that point satisfy `¬ le a b`). -/
def insertSorted {α : Type} (le : α → α → Bool) (a : α) : List α → List α
  | [] => [a]
  | b :: t => if le a b then a :: b :: t else b :: insertSorted le a t

/-- Stable insertion sort: an element inserted earlier in the input comes
before all later equivalent elements, so for a total preorder `le` this
computes the same list as any stable sort (in particular Python's). -/
def insSort {α : Type} (le : α → α → Bool) : List α → List α
  | [] => []
  | a :: t => insertSorted le a (insSort le t)

/-- Code-point comparison of strings (Python string `<=`). -/
def lexLeChars : List Char → List Char → Bool
  | [], _ => true
  | _ :: _, [] => false
  | a :: s, b :: t => if a = b then lexLeChars s t else decide (a < b)

/-- Python `sorted` on strings: stable lexicographic ascending sort. -/
def sortedStrings (l : List String) : List String :=
  insSort (fun a b => lexLeChars a.data b.data) l

/-- Python `list.sort(key=..., reverse=True)`: stable sort, numeric key
descending. -/
def sortByScoreDesc {α : Type} (key : α → Nat) (l : List α) : List α :=
  insSort (fun a b => key b ≤ key a) l

/-! ## Fuzzy matcher (external collaborator `rapidfuzz.process`) -/

/-- The fuzzy similarity scorer, abstract stand-in for `fuzz.WRatio`. -/
abbrev Scorer := String → String → Nat

/-- `process.extract(query, choices, limit=limit, scorer=scorer)`: score
every choice, order by score descending (stable on input position), return
at most `limit` (a non-positive limit yields nothing). -/
def extract (scorer : Scorer) (query : String) (choices : List String)
    (limit : Int) : List (String × Nat) :=
  let scored := choices.map (fun c => (c, scorer query c))
  (sortByScoreDesc (fun p => p.2) scored).take limit.toNat

/-- One step of `extractOne`: keep the running best, replacing it only on a
strictly greater score (so the first best wins ties). -/
def bestStep (scorer : Scorer) (query : String) (best : String × Nat)
    (x : String) : String × Nat :=
  if scorer query x > best.2 then (x, scorer query x) else best

/-- `process.extractOne(query, choices, scorer=scorer)`: the best-scoring
choice (the first one on ties), or `none` when `choices` is empty. -/
def extractOne (scorer : Scorer) (query : String) (choices : List String) :
    Option (String × Nat) :=
  match choices with
  | [] => none
  | c :: t => some (t.foldl (bestStep scorer query) (c, scorer query c))

/-! ## Filesystem observations -/

namespace FS

/-- All HTML files under the root, as enumerated by `docs_dir.rglob("*.html")`:
HTML files that are immediate children first, then each child directory's
subtree in `iterdir` order (pathlib's recursive-wildcard walk yields the
starting directory's matches before recursing). -/
def rootHtml (fs : FS) : List DocFile :=
  ((fs.top.filter (fun t => !t.isDir && endsWithStr t.name ".html")).map
      (fun t => DocFile.mk t.name t.content))
    ++ fs.top.flatMap (fun t => t.files)

/-- `(docs_dir / p).exists()`: the root exists and `p` names an immediate
child or a deeper HTML file. -/
def pathExists (fs : FS) (p : String) : Bool :=
  fs.rootExists &&
    (fs.top.any (fun t => t.name == p) ||
     (fs.top.flatMap (fun t => t.files)).any (fun f => f.rel == p))

/-- `(docs_dir / p).is_file()`: `p` names a non-directory immediate child or
a deeper HTML file. -/
def isFile (fs : FS) (p : String) : Bool :=
  fs.rootExists &&
    (fs.top.any (fun t => t.name == p && !t.isDir) ||
     (fs.top.flatMap (fun t => t.files)).any (fun f => f.rel == p))

/-- Text content of the file at relative path `p`, when there is one. -/
def contentOf (fs : FS) (p : String) : Option String :=
  match fs.top.find? (fun t => t.name == p && !t.isDir) with
  | some t => some t.content
  | none =>
    match (fs.top.flatMap (fun t => t.files)).find? (fun f => f.rel == p) with
    | some f => some f.content
    | none => none

end FS

/-! ## `DevDocsManager`: catalog cache, list, search, read -/

/-- One cached catalog entry, as stored by `_build_file_cache`:
`(html_file, html_file.stem, doc_set_name)` with the file given by its
path relative to the docs root. -/
structure CEntry where
  rel : String
  stem : String
  docSet : String
deriving DecidableEq, Repr

/-- The manager's mutable cache fields: `_all_files_cache` and
`_file_list_cache` (`None` = unbuilt; the per-set dict is an insertion-order
association list). -/
structure CState where
  allFiles : Option (List CEntry)
  fileList : Option (List (String × List CEntry))
deriving DecidableEq, Repr

/-- Cache state right after `__init__`. -/
def initState : CState := ⟨none, none⟩

/-- `DevDocsManager._find_docs_dir`, over an abstract probe
`isExistingDir p = (Path(p).exists() and Path(p).is_dir())` and the user's
home directory: the conventional candidate locations, in probe order. -/
def docsCandidates (home : String) : List String :=
  ["docs", "/usr/local/share/devdocs/docs", home ++ "/.local/share/devdocs/docs"]

/-- `DevDocsManager._find_docs_dir`: first candidate that exists and is a
directory, else `Path("docs")`. -/
def find_docs_dir (isExistingDir : String → Bool) (home : String) : String :=
  match (docsCandidates home).find? isExistingDir with
  | some c => c
  | none => "docs"

/-- `DevDocsManager.list_available_docs`, in state-passing form (the method
reads no cache field and writes none, so the state passes through
unchanged): names of non-hidden immediate subdirectories, sorted. -/
def list_available_docs (fs : FS) (st : CState) : List String × CState :=
  (if !fs.rootExists then []
   else sortedStrings
     ((fs.top.filter (fun t => t.isDir && !startsWithStr t.name ".")).map
       (fun t => t.name)),
   st)

/-- `DevDocsManager._build_file_cache`: no-op when `_all_files_cache` is
already set; otherwise initialize both caches to empty and, when the root
exists, record every HTML file of every non-hidden immediate subdirectory,
in discovery order, in both the flat list and the per-set mapping. -/
def build_file_cache (fs : FS) (st : CState) : CState :=
  if st.allFiles.isSome then st
  else if !fs.rootExists then ⟨some [], some []⟩
  else
    let dirs := fs.top.filter (fun d => d.isDir && !startsWithStr d.name ".")
    let perSet := dirs.map (fun d =>
      (d.name, d.files.map (fun f => CEntry.mk f.rel (stemOf f.rel) d.name)))
    ⟨some (perSet.flatMap (fun p => p.2)), some perSet⟩

/-- Normalized grouping key of a cached entry. -/
def kOf (e : CEntry) : String := normalize_stem e.stem

/-- First-occurrence deduplication (the key order of a Python dict built by
repeated insertion). -/
def dedupFirst : List String → List String
  | [] => []
  | k :: t => k :: (dedupFirst t).filter (fun x => x ≠ k)

/-- The `stem_to_files` dict of `search_docs`: keys in first-occurrence
order, each key mapped to all entries sharing that normalized stem, in
input order.  (Extensionally the dict built by the Python loop.) -/
def groupByStem (files : List CEntry) : List (String × List CEntry) :=
  (dedupFirst (files.map kOf)).map
    (fun k => (k, files.filter (fun e => kOf e == k)))

/-- One search result, as the dict
`{"path": ..., "name": ..., "score": ..., "doc_set": ...}`. -/
structure SResult where
  path : String
  name : String
  score : Nat
  docSet : String
deriving DecidableEq, Repr

/-- The matching pipeline of `DevDocsManager.search_docs`, from a selected
non-empty candidate pool: group by normalized stem; fuzzy-extract over the
distinct stems with a `limit * 10` candidate bound; keep scores `> 60`;
expand each kept stem back to its files, boosting by `+15` when no set
filter was given and the owning set's lowercased name occurs as a word of
the lowercased query; stable-sort by score descending; truncate with
`results[:limit]`. -/
def search_results (scorer : Scorer) (query : String) (doc_set : Option String)
    (limit : Int) (files_to_search : List CEntry) : List SResult :=
  let stem_to_files := groupByStem files_to_search
  let unique_stems := stem_to_files.map Prod.fst
  let fuzzyMatches := extract scorer query unique_stems (limit * 10)
  let results := fuzzyMatches.flatMap (fun ms =>
    if ms.2 > 60 then
      ((stem_to_files.lookup ms.1).getD []).map (fun e =>
        let final_score :=
          if !optTruthy doc_set &&
             (pySplitWs (lowerStr query)).contains (lowerStr e.docSet)
          then ms.2 + 15 else ms.2
        SResult.mk e.rel ms.1 final_score e.docSet)
    else [])
  pySlice (sortByScoreDesc (fun r => r.score) results) limit

/-- `DevDocsManager.search_docs` (returns the result list and the state
after the call): empty on a missing root; lazily build the cache; select
the candidate pool (per-set on a truthy `doc_set`, else all); empty pool
yields an empty list; otherwise run the matching pipeline above. -/
def search_docs (scorer : Scorer) (fs : FS) (query : String)
    (doc_set : Option String) (limit : Int) (st : CState) :
    List SResult × CState :=
  if !fs.rootExists then ([], st)
  else
    let st1 := build_file_cache fs st
    let files_to_search :=
      if optTruthy doc_set then ((st1.fileList.getD []).lookup (doc_set.getD "")).getD []
      else st1.allFiles.getD []
    if files_to_search.isEmpty then ([], st1)
    else
      (search_results scorer query doc_set limit files_to_search, st1)

/-- The final existence check of `read_doc`
(`if not full_path.exists() or not full_path.is_file(): return None`),
yielding the path whose content will be read. -/
def finalPathCheck (fs : FS) (p : String) : Option String :=
  if fs.pathExists p && fs.isFile p then some p else none

/-- Path-resolution part of `DevDocsManager.read_doc`: the relative path of
the file whose content is read, or `none` (`NotFound`).  Fuzzy fallback is
entered exactly when the direct candidate does not exist and `fuzzy_match`
is set; it enumerates all HTML files under the root, fuzzy-matches the
input path against their normalized stems, and on a best score `> 70`
adopts the first enumerated file carrying the best-matching stem. -/
def read_doc_resolved (scorer : Scorer) (fs : FS) (path : String)
    (fuzzy_match : Bool) : Option String :=
  if !fs.pathExists path && fuzzy_match then
    if !fs.rootExists then none
    else
      let html_files := fs.rootHtml
      if html_files.isEmpty then none
      else
        let file_stems := html_files.map (fun f => normalize_stem (stemOf f.rel))
        match extractOne scorer path file_stems with
        | none => none
        | some ms =>
          if ms.2 > 70 then
            match html_files.find?
                (fun f => normalize_stem (stemOf f.rel) == ms.1) with
            | some f => finalPathCheck fs f.rel
            | none => none
          else none
  else finalPathCheck fs path

/-- `DevDocsManager.read_doc`: resolve the path, then read the file and
convert it (BeautifulSoup chrome-stripping plus `markdownify`, an external
pure dependency, abstracted as `convert`).  `None` when resolution fails. -/
def read_doc (convert : String → String) (scorer : Scorer) (fs : FS)
    (path : String) (fuzzy_match : Bool) : Option String :=
  (read_doc_resolved scorer fs path fuzzy_match).bind
    (fun p => (fs.contentOf p).map convert)

/-- Variant of `read_doc_resolved` following the spec's §4.5 step 1 wording
instead of the source: fallback is attempted whenever the direct candidate
is not an existing regular file, rather than whenever it does not exist.
Used only to compare the spec's description with the code's behaviour. -/
def read_doc_resolved_specStep1 (scorer : Scorer) (fs : FS) (path : String)
    (fuzzy_match : Bool) : Option String :=
  if !(fs.pathExists path && fs.isFile path) && fuzzy_match then
    if !fs.rootExists then none
    else
      let html_files := fs.rootHtml
      if html_files.isEmpty then none
      else
        let file_stems := html_files.map (fun f => normalize_stem (stemOf f.rel))
        match extractOne scorer path file_stems with
        | none => none
        | some ms =>
          if ms.2 > 70 then
            match html_files.find?
                (fun f => normalize_stem (stemOf f.rel) == ms.1) with
            | some f => finalPathCheck fs f.rel
            | none => none
          else none
  else finalPathCheck fs path

/-! ## Concrete instances used by counterexamples and witnesses -/

/-- A scorer satisfying the RapidFuzz contract with the single documented
exact value: an exact string match scores 100, anything else 0. -/
def exactScorer : Scorer := fun q c => if q == c then 100 else 0

/-- A tree with one set `rust` holding `rust.vec.html`
(normalized stem `rust vec`). -/
def fsRust : FS :=
  ⟨true, [⟨"rust", true, "", [⟨"rust/rust.vec.html", "<html>vec</html>"⟩]⟩]⟩

/-- A tree where `python` exists as a directory (so `read_doc "python"`
finds an existing non-file) which also holds `python/python.html`. -/
def fsDirHit : FS :=
  ⟨true, [⟨"python", true, "", [⟨"python/python.html", "<html>py</html>"⟩]⟩]⟩

/-- A tree whose only HTML file lives in a hidden immediate subdirectory,
so the catalog cache never records it. -/
def fsHidden : FS :=
  ⟨true, [⟨".archive", true, "", [⟨".archive/secret.html", "<html>s</html>"⟩]⟩]⟩

/-- A tree whose only HTML file is an immediate child of the root, outside
every set directory. -/
def fsLoose : FS :=
  ⟨true, [⟨"readme.html", false, "<html>r</html>", []⟩]⟩

/-- Two sets `a` and `b`, each holding a `vec.html` (same normalized stem). -/
def fsTwo : FS :=
  ⟨true,
   [⟨"a", true, "", [⟨"a/vec.html", "<html>a</html>"⟩]⟩,
    ⟨"b", true, "", [⟨"b/vec.html", "<html>b</html>"⟩]⟩]⟩

/-- A root with a single set `python` and no files. -/
def fsA : FS := ⟨true, [⟨"python", true, "", []⟩]⟩

/-- `fsA` after a new set `zig` was created on disk. -/
def fsB : FS := ⟨true, [⟨"python", true, "", []⟩, ⟨"zig", true, "", []⟩]⟩

/-- A missing root. -/
def fsNone : FS := ⟨false, []⟩

section Sanity
example : stemOf "rust/rust.vec.html" = "rust.vec" := by decide
example : stemOf "python/index.html" = "index" := by decide
example : normalize_stem "rust.vec" = "rust vec" := by decide
example : pySplitWs "rust  vec" = ["rust", "vec"] := by decide
example : pySlice [1, 2, 3] (-1) = [1, 2] := by decide
example : pySlice [1, 2, 3] 0 = ([] : List Nat) := by decide
example : sortedStrings ["b", "a", "ab"] = ["a", "ab", "b"] := by decide
example :
    (search_docs exactScorer fsRust "rust vec" none 20 initState).1 =
      [⟨"rust/rust.vec.html", "rust vec", 115, "rust"⟩] := by decide
example :
    read_doc_resolved exactScorer fsHidden "secret" true =
      some ".archive/secret.html" := by decide
end Sanity

/-! ## Helper lemmas: sorting, slicing, extraction -/

theorem insertSorted_perm {α : Type} (le : α → α → Bool) (a : α) (l : List α) :
    List.Perm (insertSorted le a l) (a :: l) := by
  induction l with
  | nil => simp [insertSorted]
  | cons b t ih =>
    simp only [insertSorted]
    split
    · exact List.Perm.refl _
    · exact (ih.cons b).trans (List.Perm.swap a b t)

theorem insSort_perm {α : Type} (le : α → α → Bool) (l : List α) :
    List.Perm (insSort le l) l := by
  induction l with
  | nil => simp [insSort]
  | cons a t ih =>
    exact (insertSorted_perm le a (insSort le t)).trans (ih.cons a)

theorem sortByScoreDesc_perm {α : Type} (key : α → Nat) (l : List α) :
    List.Perm (sortByScoreDesc key l) l :=
  insSort_perm _ l

theorem pySlice_sublist {α : Type} (l : List α) (n : Int) :
    (pySlice l n).Sublist l := by
  unfold pySlice
  split <;> exact List.take_sublist _ _

theorem mem_pySlice {α : Type} {l : List α} {n : Int} {a : α}
    (h : a ∈ pySlice l n) : a ∈ l :=
  (pySlice_sublist l n).subset h

theorem length_pySlice_le {α : Type} (l : List α) {n : Int} (h : 0 ≤ n) :
    (pySlice l n).length ≤ n.toNat := by
  unfold pySlice
  rw [if_pos h]
  exact (List.length_take _ _).le.trans (Nat.min_le_left _ _)

theorem extract_nonpos (scorer : Scorer) (query : String)
    (choices : List String) {limit : Int} (h : limit ≤ 0) :
    extract scorer query choices limit = [] := by
  unfold extract
  rw [Int.toNat_of_nonpos h]
  simp

theorem mem_extract {scorer : Scorer} {query : String} {choices : List String}
    {limit : Int} {ms : String × Nat} (h : ms ∈ extract scorer query choices limit) :
    ms.1 ∈ choices ∧ ms.2 = scorer query ms.1 := by
  unfold extract at h
  have h1 : ms ∈ sortByScoreDesc (fun p => p.2)
      (choices.map (fun c => (c, scorer query c))) :=
    List.mem_of_mem_take h
  have h2 : ms ∈ choices.map (fun c => (c, scorer query c)) :=
    (sortByScoreDesc_perm _ _).subset h1
  obtain ⟨c, hc, he⟩ := List.mem_map.mp h2
  cases he
  exact ⟨hc, rfl⟩

theorem extract_map_fst_nodup (scorer : Scorer) (query : String)
    {choices : List String} (h : choices.Nodup) (limit : Int) :
    ((extract scorer query choices limit).map Prod.fst).Nodup := by
  unfold extract
  rw [List.map_take]
  have hperm : List.Perm
      ((sortByScoreDesc (fun p => p.2) (choices.map (fun c => (c, scorer query c)))).map
        Prod.fst)
      ((choices.map (fun c => (c, scorer query c))).map Prod.fst) :=
    (sortByScoreDesc_perm _ _).map _
  have heq : (choices.map (fun c => (c, scorer query c))).map Prod.fst = choices := by
    rw [List.map_map]
    exact show List.map (fun c => c) choices = choices from List.map_id' choices
  have hnd2 : ((choices.map (fun c => (c, scorer query c))).map Prod.fst).Nodup := by
    rw [heq]; exact h
  exact (hperm.nodup_iff.mpr hnd2).sublist (List.take_sublist _ _)

theorem foldl_bestStep_spec (scorer : Scorer) (query : String) :
    ∀ (t : List String) (b : String × Nat), b.2 = scorer query b.1 →
      (t.foldl (bestStep scorer query) b).2 =
          scorer query (t.foldl (bestStep scorer query) b).1 ∧
        ((t.foldl (bestStep scorer query) b).1 = b.1 ∨
          (t.foldl (bestStep scorer query) b).1 ∈ t) := by
  intro t
  induction t with
  | nil => intro b hb; exact ⟨hb, Or.inl rfl⟩
  | cons x t ih =>
    intro b hb
    simp only [List.foldl_cons]
    by_cases hx : scorer query x > b.2
    · have hstep : bestStep scorer query b x = (x, scorer query x) := by
        unfold bestStep; rw [if_pos hx]
      rw [hstep]
      obtain ⟨h1, h2⟩ := ih (x, scorer query x) rfl
      refine ⟨h1, ?_⟩
      rcases h2 with h2 | h2
      · exact Or.inr (h2 ▸ List.mem_cons_self x t)
      · exact Or.inr (List.mem_cons_of_mem x h2)
    · have hstep : bestStep scorer query b x = b := by
        unfold bestStep; rw [if_neg hx]
      rw [hstep]
      obtain ⟨h1, h2⟩ := ih b hb
      refine ⟨h1, ?_⟩
      rcases h2 with h2 | h2
      · exact Or.inl h2
      · exact Or.inr (List.mem_cons_of_mem x h2)

theorem extractOne_mem {scorer : Scorer} {query : String} {choices : List String}
    {ms : String × Nat} (h : extractOne scorer query choices = some ms) :
    ms.1 ∈ choices ∧ ms.2 = scorer query ms.1 := by
  match choices, h with
  | c :: t, h =>
    unfold extractOne at h
    injection h with h
    obtain ⟨h1, h2⟩ := foldl_bestStep_spec scorer query t (c, scorer query c) rfl
    subst h
    refine ⟨?_, h1⟩
    rcases h2 with h2 | h2
    · exact h2 ▸ List.mem_cons_self c t
    · exact List.mem_cons_of_mem c h2

/-! ## Helper lemmas: grouping and lookup -/

theorem mem_dedupFirst {x : String} : ∀ {l : List String}, x ∈ dedupFirst l ↔ x ∈ l := by
  intro l
  induction l with
  | nil => simp [dedupFirst]
  | cons k t ih =>
    simp only [dedupFirst, List.mem_cons, List.mem_filter]
    constructor
    · rintro (rfl | ⟨hx, _⟩)
      · exact Or.inl rfl
      · exact Or.inr (ih.mp hx)
    · rintro (rfl | hx)
      · exact Or.inl rfl
      · by_cases hk : x = k
        · exact Or.inl hk
        · exact Or.inr ⟨ih.mpr hx, by simpa using hk⟩

theorem dedupFirst_nodup : ∀ l : List String, (dedupFirst l).Nodup := by
  intro l
  induction l with
  | nil => simp [dedupFirst]
  | cons k t ih =>
    simp only [dedupFirst, List.nodup_cons]
    refine ⟨?_, ih.filter _⟩
    intro hk
    have := (List.mem_filter.mp hk).2
    simp at this

theorem lookup_map_graph {β : Type} (g : String → β) (m : String) :
    ∀ keys : List String,
      ((keys.map (fun k => (k, g k))).lookup m) =
        if m ∈ keys then some (g m) else none := by
  intro keys
  induction keys with
  | nil => simp [List.lookup]
  | cons k t ih =>
    simp only [List.map_cons, List.lookup, List.mem_cons]
    by_cases h : m = k
    · subst h; simp
    · have hbeq : (m == k) = false := by simp [h]
      rw [hbeq]
      simp only [ih]
      by_cases hm : m ∈ t
      · rw [if_pos hm, if_pos (Or.inr hm)]
      · rw [if_neg hm, if_neg (by rintro (rfl | hc) <;> [exact h rfl; exact hm hc])]

theorem groupByStem_lookup (files : List CEntry) (m : String) :
    (groupByStem files).lookup m =
      if m ∈ files.map kOf then some (files.filter (fun e => kOf e == m)) else none := by
  unfold groupByStem
  rw [lookup_map_graph]
  simp [mem_dedupFirst]

/-! ## Helper lemmas: find?, rootHtml, the cache -/

theorem find?_first_index {α : Type} {p : α → Bool} :
    ∀ {l : List α} {a : α}, l.find? p = some a →
      ∃ i : Fin l.length, l.get i = a ∧ p a = true ∧
        ∀ j : Fin l.length, (j : Nat) < (i : Nat) → p (l.get j) = false := by
  intro l
  induction l with
  | nil => intro a h; simp [List.find?] at h
  | cons x t ih =>
    intro a h
    by_cases hx : p x
    · rw [List.find?_cons_of_pos _ hx] at h
      injection h with h
      subst h
      exact ⟨⟨0, Nat.succ_pos _⟩, rfl, hx, fun j hj => absurd hj (Nat.not_lt_zero _)⟩
    · rw [List.find?_cons_of_neg _ (by simpa using hx)] at h
      obtain ⟨i, hget, hpa, hfirst⟩ := ih h
      refine ⟨⟨i.val + 1, Nat.succ_lt_succ i.isLt⟩, hget, hpa, ?_⟩
      intro j hj
      match j, hj with
      | ⟨0, _⟩, _ => simpa using hx
      | ⟨jv + 1, hjv⟩, hj =>
        exact hfirst ⟨jv, Nat.lt_of_succ_lt_succ hjv⟩ (Nat.lt_of_succ_lt_succ hj)

theorem finalPathCheck_rootHtml {fs : FS} (hroot : fs.rootExists = true)
    {f : DocFile} (hf : f ∈ fs.rootHtml) : finalPathCheck fs f.rel = some f.rel := by
  unfold finalPathCheck FS.pathExists FS.isFile
  rw [hroot]
  unfold FS.rootHtml at hf
  rcases List.mem_append.mp hf with hf | hf
  · obtain ⟨t, ht, he⟩ := List.mem_map.mp hf
    obtain ⟨htop, hcond⟩ := List.mem_filter.mp ht
    have hdir : t.isDir = false := by
      have h1 := (Bool.and_eq_true _ _).mp hcond |>.1
      simpa using h1
    have h1 : fs.top.any (fun u => u.name == f.rel) = true := by
      rw [List.any_eq_true]
      exact ⟨t, htop, by rw [← he]; simp⟩
    have h2 : fs.top.any (fun u => u.name == f.rel && !u.isDir) = true := by
      rw [List.any_eq_true]
      refine ⟨t, htop, ?_⟩
      rw [← he]
      simp [hdir]
    simp [h1, h2]
  · have h1 : (fs.top.flatMap (fun t => t.files)).any (fun g => g.rel == f.rel) = true := by
      rw [List.any_eq_true]
      exact ⟨f, hf, by simp⟩
    simp [h1]

theorem build_file_cache_allFiles_isSome (fs : FS) (st : CState) :
    (build_file_cache fs st).allFiles.isSome = true := by
  unfold build_file_cache
  split
  · assumption
  · split <;> simp

theorem build_file_cache_of_isSome {fs : FS} {st : CState}
    (h : st.allFiles.isSome = true) : build_file_cache fs st = st := by
  unfold build_file_cache
  rw [if_pos h]

theorem build_file_cache_stable (fs fs' : FS) (st : CState) :
    build_file_cache fs' (build_file_cache fs st) = build_file_cache fs st :=
  build_file_cache_of_isSome (build_file_cache_allFiles_isSome fs st)

theorem sublist_flatMap {α β : Type} (f : α → List β) {l₁ l₂ : List α}
    (h : l₁.Sublist l₂) : (l₁.flatMap f).Sublist (l₂.flatMap f) := by
  induction h with
  | slnil => simp
  | cons a h ih =>
    rw [List.flatMap_cons]
    exact ih.trans (List.sublist_append_right _ _)
  | cons₂ a h ih =>
    rw [List.flatMap_cons, List.flatMap_cons]
    exact List.Sublist.append (List.Sublist.refl _) ih

theorem flatMap_sublist_of_mem {α β : Type} (f : α → List β) {a : α} {l : List α}
    (h : a ∈ l) : (f a).Sublist (l.flatMap f) := by
  induction l with
  | nil => cases h
  | cons x t ih =>
    rw [List.flatMap_cons]
    rcases List.mem_cons.mp h with rfl | h
    · exact List.sublist_append_left _ _
    · exact (ih h).trans (List.sublist_append_right _ _)

theorem lookup_mem {α β : Type} [BEq α] [LawfulBEq α] {l : List (α × β)} {k : α}
    {v : β} (h : l.lookup k = some v) : (k, v) ∈ l := by
  induction l with
  | nil => simp [List.lookup] at h
  | cons p t ih =>
    match p with
    | (k', v') =>
      rw [List.lookup] at h
      by_cases hk : k == k'
      · rw [hk] at h
        injection h with h
        subst h
        have : k = k' := eq_of_beq hk
        subst this
        exact List.mem_cons_self _ _
      · rw [Bool.eq_false_iff.mpr hk] at h
        exact List.mem_cons_of_mem _ (ih h)

theorem groupByStem_keys (files : List CEntry) :
    (groupByStem files).map Prod.fst = dedupFirst (files.map kOf) := by
  unfold groupByStem
  rw [List.map_map]
  exact show List.map (fun k => k) _ = _ from List.map_id' _

/-- Paths emitted by the stem-expansion loop of `search_docs` are pairwise
distinct, as long as the candidate pool has pairwise distinct paths and the
kept matches carry pairwise distinct stems. -/
theorem emit_paths_nodup (files : List CEntry)
    (hrels : (files.map CEntry.rel).Nodup)
    (fm : List (String × Nat)) (hfst : (fm.map Prod.fst).Nodup)
    (mkR : String × Nat → CEntry → SResult)
    (hpath : ∀ ms e, (mkR ms e).path = e.rel) :
    ((fm.flatMap (fun ms =>
        if ms.2 > 60 then (((groupByStem files).lookup ms.1).getD []).map (mkR ms)
        else [])).map SResult.path).Nodup := by
  rw [List.map_flatMap]
  rw [List.nodup_flatMap]
  have hchar : ∀ ms : String × Nat, ∀ p,
      p ∈ (List.map SResult.path
        (if ms.2 > 60 then (((groupByStem files).lookup ms.1).getD []).map (mkR ms)
         else [])) →
      ∃ e, e ∈ files ∧ kOf e = ms.1 ∧ e.rel = p := by
    intro ms p hp
    obtain ⟨r, hr, hrp⟩ := List.mem_map.mp hp
    split at hr
    · rw [groupByStem_lookup] at hr
      split at hr
      · rw [Option.getD_some] at hr
        obtain ⟨e, he, hre⟩ := List.mem_map.mp hr
        have hfe := List.mem_filter.mp he
        refine ⟨e, hfe.1, by simpa using hfe.2, ?_⟩
        rw [← hrp, ← hre]
        exact (hpath ms e).symm
      · simp at hr
    · simp at hr
  constructor
  · intro ms _
    split
    · rw [groupByStem_lookup]
      split
      · rw [Option.getD_some, List.map_map]
        have hcomp : (SResult.path ∘ mkR ms) = CEntry.rel :=
          funext (fun e => hpath ms e)
        rw [hcomp]
        exact List.Nodup.sublist ((List.filter_sublist files).map _) hrels
      · simp
    · simp
  · have hp : List.Pairwise (fun a b : String × Nat => a.1 ≠ b.1) fm :=
      List.pairwise_map.mp hfst
    refine hp.imp ?_
    intro a b hne
    intro p hpa hpb
    obtain ⟨e₁, he₁, hk₁, hr₁⟩ := hchar a p hpa
    obtain ⟨e₂, he₂, hk₂, hr₂⟩ := hchar b p hpb
    have : e₁ = e₂ :=
      List.inj_on_of_nodup_map hrels he₁ he₂ (by rw [hr₁, hr₂])
    exact hne (by rw [← hk₁, this, hk₂])

theorem slice_sort_paths_nodup {R : List SResult} (limit : Int)
    (h : (R.map SResult.path).Nodup) :
    ((pySlice (sortByScoreDesc (fun r => r.score) R) limit).map SResult.path).Nodup :=
  List.Nodup.sublist ((pySlice_sublist _ _).map _)
    (((sortByScoreDesc_perm (fun r => r.score) R).map SResult.path).nodup_iff.mpr h)

/-- The matching pipeline never emits two results with the same path, given
a candidate pool with pairwise distinct paths. -/
theorem search_results_paths_nodup (scorer : Scorer) (query : String)
    (doc_set : Option String) (limit : Int) {files : List CEntry}
    (hrels : (files.map CEntry.rel).Nodup) :
    ((search_results scorer query doc_set limit files).map SResult.path).Nodup := by
  simp only [search_results]
  exact slice_sort_paths_nodup limit
    (emit_paths_nodup files hrels _
      (extract_map_fst_nodup scorer query
        (by rw [groupByStem_keys]; exact dedupFirst_nodup _) _)
      _ (fun ms e => rfl))

theorem pySlice_length_int {α : Type} (l : List α) {n : Int} (h : 0 ≤ n) :
    ((pySlice l n).length : Int) ≤ n := by
  have h1 := length_pySlice_le l h
  calc ((pySlice l n).length : Int) ≤ (n.toNat : Int) := by exact_mod_cast h1
    _ = n := Int.toNat_of_nonneg h

/-- The pipeline returns at most `limit` results for a nonnegative limit. -/
theorem search_results_length (scorer : Scorer) (query : String)
    (ds : Option String) (files : List CEntry) {limit : Int} (h : 0 ≤ limit) :
    ((search_results scorer query ds limit files).length : Int) ≤ limit := by
  simp only [search_results]
  exact pySlice_length_int _ h

/-- The pipeline returns nothing for a non-positive limit (the `limit * 10`
candidate bound passed to the fuzzy matcher is already non-positive). -/
theorem search_results_nonpos (scorer : Scorer) (query : String)
    (ds : Option String) (files : List CEntry) {limit : Int} (h : limit ≤ 0) :
    search_results scorer query ds limit files = [] := by
  simp only [search_results]
  have hmul : limit * 10 ≤ 0 := by
    have := mul_le_mul_of_nonneg_right h (by norm_num : (0:Int) ≤ 10)
    simpa using this
  rw [extract_nonpos scorer query _ hmul]
  rw [List.flatMap_nil]
  show pySlice (sortByScoreDesc (fun r => r.score) []) limit = []
  unfold sortByScoreDesc insSort pySlice
  split <;> simp

/-- Every result of the pipeline scores strictly above 60 and at most
`100 + 15`, for any scorer respecting the 0–100 contract. -/
theorem search_results_score_bounds {scorer : Scorer}
    (hs : ∀ q c, scorer q c ≤ 100) (query : String) (ds : Option String)
    (limit : Int) (files : List CEntry) :
    ∀ r ∈ search_results scorer query ds limit files,
      60 < r.score ∧ r.score ≤ 115 := by
  intro r hr
  simp only [search_results] at hr
  have hr1 := mem_pySlice hr
  have hr2 := (sortByScoreDesc_perm (fun r : SResult => r.score) _).subset hr1
  obtain ⟨ms, hms, hrms⟩ := List.mem_flatMap.mp hr2
  by_cases hgt : ms.2 > 60
  · rw [if_pos hgt] at hrms
    obtain ⟨e, _, hre⟩ := List.mem_map.mp hrms
    have hms2 : ms.2 ≤ 100 := by
      obtain ⟨_, hsc⟩ := mem_extract hms
      rw [hsc]; exact hs query ms.1
    subst hre
    dsimp only
    constructor
    · split <;> omega
    · split <;> omega
  · rw [if_neg hgt] at hrms
    simp at hrms

/-- The flat cache built from a fresh state has pairwise distinct paths, and
so does each per-set list, given a tree whose files carry distinct paths. -/
theorem build_init_nodup (fs : FS)
    (hwf : ((fs.top.flatMap (fun t => t.files)).map DocFile.rel).Nodup) :
    ((((build_file_cache fs initState).allFiles.getD []).map CEntry.rel).Nodup) ∧
    (∀ k v, (((build_file_cache fs initState).fileList.getD []).lookup k) = some v →
      (v.map CEntry.rel).Nodup) := by
  have hwf2 : (fs.top.flatMap (fun t => t.files.map DocFile.rel)).Nodup := by
    rw [← List.map_flatMap]; exact hwf
  simp only [build_file_cache, initState, Option.isSome_none, Bool.false_eq_true,
    if_false]
  split
  · constructor
    · simp
    · intro k v hkv
      simp [List.lookup] at hkv
  · constructor
    · simp only [Option.getD_some]
      rw [List.flatMap_map, List.map_flatMap]
      have hbody : ∀ d : TopEntry,
          ((d.files.map (fun f => CEntry.mk f.rel (stemOf f.rel) d.name)).map
            CEntry.rel) = d.files.map DocFile.rel := by
        intro d; rw [List.map_map]; rfl
      simp only [hbody]
      exact List.Nodup.sublist (sublist_flatMap _ (List.filter_sublist _)) hwf2
    · intro k v hkv
      simp only [Option.getD_some] at hkv
      have hmem := lookup_mem hkv
      obtain ⟨d, hd, he⟩ := List.mem_map.mp hmem
      have hv : v = d.files.map (fun f => CEntry.mk f.rel (stemOf f.rel) d.name) := by
        have := congrArg Prod.snd he
        exact this.symm
      subst hv
      rw [List.map_map]
      have hcomp : (CEntry.rel ∘ fun f => CEntry.mk f.rel (stemOf f.rel) d.name) =
          DocFile.rel := rfl
      rw [hcomp]
      exact List.Nodup.sublist
        (flatMap_sublist_of_mem (fun t => t.files.map DocFile.rel)
          (List.mem_of_mem_filter hd)) hwf2

/-- Reduction of `read_doc` to its fuzzy-fallback branch: with a missing
direct candidate, an existing root, a non-empty file enumeration, and a
known best match, the resolution is decided by the 70 threshold and the
first file carrying the best-matching stem. -/
theorem fallback_first_match (scorer : Scorer) (fs : FS) (path m : String)
    (s : Nat) (hroot : fs.rootExists = true)
    (hmiss : fs.pathExists path = false)
    (hne : fs.rootHtml.isEmpty = false)
    (hext : extractOne scorer path
        (fs.rootHtml.map (fun f => normalize_stem (stemOf f.rel))) = some (m, s)) :
    read_doc_resolved scorer fs path true =
      if s > 70 then
        match fs.rootHtml.find? (fun f => normalize_stem (stemOf f.rel) == m) with
        | some f => finalPathCheck fs f.rel
        | none => none
      else none := by
  simp only [read_doc_resolved]
  rw [hmiss]
  rw [if_pos (show (!false && true) = true from rfl)]
  rw [hroot]
  rw [if_neg (show ¬((!true) = true) from by decide)]
  rw [hne]
  rw [if_neg (show ¬(false = true) from by decide)]
  rw [hext]

/-- When the cache built from a fresh state is empty (no non-hidden set
directory contains files), every search returns no results. -/
theorem search_docs_empty_cache (scorer : Scorer) (fs : FS) (query : String)
    (ds : Option String) (limit : Int)
    (hb : build_file_cache fs initState = ⟨some [], some []⟩) :
    (search_docs scorer fs query ds limit initState).1 = [] := by
  simp only [search_docs, hb]
  split
  · rfl
  · by_cases hds : optTruthy ds = true
    · simp [hds, List.lookup]
    · rw [Bool.not_eq_true] at hds
      simp [hds]

/-! ## Claim theorems -/

/-- Claim C3, counterexample: in `fsDirHit` the path `python` exists but is
a directory, not a regular file; the code skips fallback and returns the
absence value, while the spec's step-1 reading would still attempt fallback
and resolve `python/python.html`.  So "when Root+path exists but is not a
regular file, fallback resolution is still attempted" is false of the code. -/
theorem C3_counterexample :
    fsDirHit.pathExists "python" = true ∧
    fsDirHit.isFile "python" = false ∧
    read_doc_resolved exactScorer fsDirHit "python" true = none ∧
    read_doc_resolved_specStep1 exactScorer fsDirHit "python" true =
      some "python/python.html" :=
  ⟨by decide, by decide, by decide, by decide⟩

/-- Claim C3 (amended): `read_doc` skips fuzzy fallback exactly when the
direct candidate `Root + path` exists — whether or not it is a regular
file; when it exists but is not a regular file, the operation returns the
absence value without attempting fallback. -/
theorem C3_amended_direct_hit (scorer : Scorer) (fs : FS) (path : String)
    (fuzzy : Bool) (h : fs.pathExists path = true) :
    read_doc_resolved scorer fs path fuzzy = finalPathCheck fs path ∧
    (fs.isFile path = false → read_doc_resolved scorer fs path fuzzy = none) := by
  have hcond : (!fs.pathExists path && fuzzy) = false := by simp [h]
  have h1 : read_doc_resolved scorer fs path fuzzy = finalPathCheck fs path := by
    simp only [read_doc_resolved, hcond, Bool.false_eq_true, if_false]
  refine ⟨h1, fun hnf => ?_⟩
  rw [h1]
  simp [finalPathCheck, hnf]

theorem C3_amended_direct_hit_witness :
    read_doc_resolved exactScorer fsDirHit "python" true =
        finalPathCheck fsDirHit "python" ∧
    (fsDirHit.isFile "python" = false →
      read_doc_resolved exactScorer fsDirHit "python" true = none) :=
  C3_amended_direct_hit exactScorer fsDirHit "python" true (by decide)

/-- Claim C6: for a non-existent Root, `listDocSets` returns the empty
sequence, `searchDocs` the empty list, and `readDoc` the absence value;
all three are total functions here, so no exception can be raised. -/
theorem C6_missing_root (convert : String → String) (scorer : Scorer) (fs : FS)
    (query : String) (ds : Option String) (limit : Int) (st : CState)
    (path : String) (fuzzy : Bool) (h : fs.rootExists = false) :
    (list_available_docs fs st).1 = [] ∧
    (search_docs scorer fs query ds limit st).1 = [] ∧
    read_doc convert scorer fs path fuzzy = none := by
  refine ⟨?_, ?_, ?_⟩
  · simp [list_available_docs, h]
  · simp [search_docs, h]
  · have hex : fs.pathExists path = false := by simp [FS.pathExists, h]
    have hres : read_doc_resolved scorer fs path fuzzy = none := by
      cases fuzzy with
      | true => simp [read_doc_resolved, hex, h]
      | false => simp [read_doc_resolved, hex, finalPathCheck]
    rw [read_doc, hres]
    rfl

theorem C6_missing_root_witness :
    (list_available_docs fsNone initState).1 = [] ∧
    (search_docs exactScorer fsNone "q" none 20 initState).1 = [] ∧
    read_doc id exactScorer fsNone "a.html" true = none :=
  C6_missing_root id exactScorer fsNone "q" none 20 initState "a.html" true
    (by decide)

/-- Claim C7, counterexample: with no conventional directory existing,
`_find_docs_dir` returns `docs` — the first (highest-priority) candidate —
not the lowest-priority conventional path as the claim states. -/
theorem C7_counterexample :
    find_docs_dir (fun _ => false) "/home/user" = "docs" ∧
    (docsCandidates "/home/user").getLastD "" =
      "/home/user/.local/share/devdocs/docs" ∧
    find_docs_dir (fun _ => false) "/home/user" ≠
      "/home/user/.local/share/devdocs/docs" :=
  ⟨by decide, by decide, by decide⟩

/-- Claim C7 (amended): `_find_docs_dir` probes the conventional
directories in fixed priority order and returns the first that exists and
is a directory; when none of them exists it falls back to the
highest-priority conventional path `docs` (not the lowest-priority one). -/
theorem C7_amended_probe_order (isExistingDir : String → Bool) (home : String) :
    (isExistingDir "docs" = true → find_docs_dir isExistingDir home = "docs") ∧
    (isExistingDir "docs" = false →
      isExistingDir "/usr/local/share/devdocs/docs" = true →
      find_docs_dir isExistingDir home = "/usr/local/share/devdocs/docs") ∧
    (isExistingDir "docs" = false →
      isExistingDir "/usr/local/share/devdocs/docs" = false →
      isExistingDir (home ++ "/.local/share/devdocs/docs") = true →
      find_docs_dir isExistingDir home = home ++ "/.local/share/devdocs/docs") ∧
    (isExistingDir "docs" = false →
      isExistingDir "/usr/local/share/devdocs/docs" = false →
      isExistingDir (home ++ "/.local/share/devdocs/docs") = false →
      find_docs_dir isExistingDir home = "docs") := by
  refine ⟨?_, ?_, ?_, ?_⟩
  · intro h1
    simp [find_docs_dir, docsCandidates, List.find?, h1]
  · intro h1 h2
    simp [find_docs_dir, docsCandidates, List.find?, h1, h2]
  · intro h1 h2 h3
    simp [find_docs_dir, docsCandidates, List.find?, h1, h2, h3]
  · intro h1 h2 h3
    simp [find_docs_dir, docsCandidates, List.find?, h1, h2, h3]

theorem C7_amended_probe_order_witness :
    find_docs_dir (fun _ => false) "/home/user" = "docs" :=
  (C7_amended_probe_order (fun _ => false) "/home/user").2.2.2 rfl rfl rfl

/-- Claim C8: `_build_file_cache` is idempotent — any positive number of
calls produces the cache of a single call; moreover a second call is a
no-op even if the filesystem changed in between, and a first call on a
missing root populates both caches as empty (built, not unbuilt). -/
theorem C8_buildCache_idempotent (fs : FS) (st : CState) (n : Nat) (hn : 1 ≤ n) :
    (build_file_cache fs)^[n] st = build_file_cache fs st ∧
    (∀ fs', build_file_cache fs' (build_file_cache fs st) =
      build_file_cache fs st) ∧
    (st.allFiles = none → fs.rootExists = false →
      build_file_cache fs st = ⟨some [], some []⟩) := by
  refine ⟨?_, fun fs' => build_file_cache_stable fs fs' st, ?_⟩
  · have key : ∀ (m : Nat) (s : CState),
        (build_file_cache fs)^[m + 1] s = build_file_cache fs s := by
      intro m
      induction m with
      | zero => intro s; rfl
      | succ k ih =>
        intro s
        rw [Function.iterate_succ_apply]
        rw [ih (build_file_cache fs s)]
        exact build_file_cache_stable fs fs s
    obtain ⟨m, rfl⟩ : ∃ m, n = m + 1 := ⟨n - 1, by omega⟩
    exact key m st
  · intro hnone hroot
    simp [build_file_cache, hnone, hroot]

theorem C8_buildCache_idempotent_witness :
    ((build_file_cache fsNone)^[2] initState =
      build_file_cache fsNone initState) ∧
    (∀ fs', build_file_cache fs' (build_file_cache fsNone initState) =
      build_file_cache fsNone initState) ∧
    (initState.allFiles = none → fsNone.rootExists = false →
      build_file_cache fsNone initState = ⟨some [], some []⟩) :=
  C8_buildCache_idempotent fsNone initState 2 (by norm_num)

/-- Claim C1, counterexample: with no set filter, query `rust vec`, and the
tree `fsRust`, the exact stem match scores 100 and is then boosted by 15
because `rust` occurs as a word of the query, so `searchDocs` returns a
result whose score is 115 — outside the claimed 0–100 scale. -/
theorem C1_counterexample :
    (search_docs exactScorer fsRust "rust vec" none 20 initState).1 =
        [⟨"rust/rust.vec.html", "rust vec", 115, "rust"⟩] ∧
      ¬((115 : Nat) ≤ 100) :=
  ⟨by decide, by decide⟩

/-- Claim C1 (amended): for every scorer obeying the RapidFuzz 0–100
contract and every query, set filter, limit, and cache state, every Match
Result returned by `searchDocs` scores strictly above 60 and at most 115;
a result boosted by +15 can exceed the 0–100 scale by up to 15. -/
theorem C1_amended_score_range (scorer : Scorer)
    (hs : ∀ q c, scorer q c ≤ 100) (fs : FS) (query : String)
    (ds : Option String) (limit : Int) (st : CState) :
    ∀ r ∈ (search_docs scorer fs query ds limit st).1,
      60 < r.score ∧ r.score ≤ 115 := by
  intro r hr
  simp only [search_docs] at hr
  split at hr
  · simp at hr
  · split at hr <;> split at hr <;>
      first
      | exact search_results_score_bounds hs query ds limit _ r hr
      | simp at hr

theorem C1_amended_score_range_witness :
    60 < (SResult.mk "rust/rust.vec.html" "rust vec" 115 "rust").score ∧
    (SResult.mk "rust/rust.vec.html" "rust vec" 115 "rust").score ≤ 115 :=
  C1_amended_score_range exactScorer
    (fun q c => by unfold exactScorer; split <;> omega)
    fsRust "rust vec" none 20 initState
    (SResult.mk "rust/rust.vec.html" "rust vec" 115 "rust") (by decide)

/-- Claim C2: `searchDocs` with `limit = N` returns at most `N` results for
`N ≥ 1` and exactly none for `N ≤ 0` (for `N ≤ 0` the `N * 10` candidate
bound already empties the fuzzy extraction, and `results[:N]` of the empty
list is empty for negative `N` as well). -/
theorem C2_limit_bounds (scorer : Scorer) (fs : FS) (query : String)
    (ds : Option String) (st : CState) (N : Int) :
    (1 ≤ N → (((search_docs scorer fs query ds N st).1).length : Int) ≤ N) ∧
    (N ≤ 0 → (search_docs scorer fs query ds N st).1 = []) := by
  constructor
  · intro h1
    have h0 : (0 : Int) ≤ N := le_trans zero_le_one h1
    simp only [search_docs]
    split
    · simpa using h0
    · split <;> split <;>
        first
        | exact search_results_length scorer query ds _ h0
        | simpa using h0
  · intro h0
    simp only [search_docs]
    split
    · rfl
    · split <;> split <;>
        first
        | exact search_results_nonpos scorer query ds _ h0
        | rfl

theorem C2_limit_bounds_witness :
    (((search_docs exactScorer fsRust "rust vec" none 1 initState).1).length :
      Int) ≤ 1 ∧
    (search_docs exactScorer fsRust "rust vec" none (-1) initState).1 = [] :=
  ⟨(C2_limit_bounds exactScorer fsRust "rust vec" none initState 1).1
      (by norm_num),
   (C2_limit_bounds exactScorer fsRust "rust vec" none initState (-1)).2
      (by norm_num)⟩

/-- Claim C4: inside the fuzzy fallback of `read_doc` (missing direct
candidate, existing root, at least one HTML file), if the best score is at
most 70 the operation returns the absence value, and if it exceeds 70 the
adopted candidate is the first file in discovery order whose normalized
stem equals the best-matching key. -/
theorem C4_fallback_threshold (scorer : Scorer) (fs : FS) (path m : String)
    (s : Nat) (hroot : fs.rootExists = true)
    (hmiss : fs.pathExists path = false)
    (hne : fs.rootHtml ≠ [])
    (hext : extractOne scorer path
        (fs.rootHtml.map (fun f => normalize_stem (stemOf f.rel))) = some (m, s)) :
    (s ≤ 70 → read_doc_resolved scorer fs path true = none) ∧
    (70 < s → ∃ i : Fin fs.rootHtml.length,
      read_doc_resolved scorer fs path true = some (fs.rootHtml.get i).rel ∧
      normalize_stem (stemOf (fs.rootHtml.get i).rel) = m ∧
      ∀ j : Fin fs.rootHtml.length, (j : Nat) < (i : Nat) →
        normalize_stem (stemOf (fs.rootHtml.get j).rel) ≠ m) := by
  have hemp : fs.rootHtml.isEmpty = false := by
    cases hh : fs.rootHtml with
    | nil => exact absurd hh hne
    | cons a t => rfl
  have hred := fallback_first_match scorer fs path m s hroot hmiss hemp hext
  constructor
  · intro hle
    rw [hred, if_neg (by omega : ¬(s > 70))]
  · intro hgt
    have hm : m ∈ fs.rootHtml.map (fun f => normalize_stem (stemOf f.rel)) :=
      (extractOne_mem hext).1
    obtain ⟨f0, hf0, hf0m⟩ := List.mem_map.mp hm
    have hfindsome : (fs.rootHtml.find?
        (fun f => normalize_stem (stemOf f.rel) == m)).isSome := by
      rw [List.find?_isSome]
      exact ⟨f0, hf0, by simp [hf0m]⟩
    obtain ⟨f, hfeq⟩ := Option.isSome_iff_exists.mp hfindsome
    obtain ⟨i, hget, hpf, hfirst⟩ := find?_first_index hfeq
    have hfmem : f ∈ fs.rootHtml := by
      rw [← hget]; exact List.get_mem _ i.1 i.2
    refine ⟨i, ?_, ?_, ?_⟩
    · rw [hred, if_pos hgt, hfeq, hget]
      exact finalPathCheck_rootHtml hroot hfmem
    · rw [hget]
      simpa using hpf
    · intro j hj
      have := hfirst j hj
      simpa using this

theorem C4_fallback_threshold_witness :
    ((100 : Nat) ≤ 70 → read_doc_resolved exactScorer fsTwo "vec" true = none) ∧
    (70 < 100 → ∃ i : Fin fsTwo.rootHtml.length,
      read_doc_resolved exactScorer fsTwo "vec" true =
          some (fsTwo.rootHtml.get i).rel ∧
      normalize_stem (stemOf (fsTwo.rootHtml.get i).rel) = "vec" ∧
      ∀ j : Fin fsTwo.rootHtml.length, (j : Nat) < (i : Nat) →
        normalize_stem (stemOf (fsTwo.rootHtml.get j).rel) ≠ "vec") :=
  C4_fallback_threshold exactScorer fsTwo "vec" "vec" 100 (by decide) (by decide)
    (by decide) (by decide)

/-- Claim C5: for every query, set filter, and limit, and a documentation
tree whose files have pairwise distinct paths, `searchDocs` (from a fresh
cache state) never returns two results with the same file path. -/
theorem C5_no_duplicate_paths (scorer : Scorer) (fs : FS) (query : String)
    (ds : Option String) (limit : Int)
    (hwf : ((fs.top.flatMap (fun t => t.files)).map DocFile.rel).Nodup) :
    (((search_docs scorer fs query ds limit initState).1).map SResult.path).Nodup := by
  obtain ⟨hall, hper⟩ := build_init_nodup fs hwf
  have hpoolA : (((((build_file_cache fs initState).fileList.getD []).lookup
      (ds.getD "")).getD []).map CEntry.rel).Nodup := by
    cases hkv : ((build_file_cache fs initState).fileList.getD []).lookup
        (ds.getD "") with
    | none => simp
    | some v =>
      simp only [Option.getD_some]
      exact hper _ v hkv
  simp only [search_docs]
  split
  · simp
  · split <;> split <;>
      first
      | exact search_results_paths_nodup scorer query ds limit hpoolA
      | exact search_results_paths_nodup scorer query ds limit hall
      | simp

theorem C5_no_duplicate_paths_witness :
    ((fsTwo.top.flatMap (fun t => t.files)).map DocFile.rel).Nodup ∧
    (((search_docs exactScorer fsTwo "vec" none 20 initState).1).map
      SResult.path).Nodup :=
  ⟨by decide, C5_no_duplicate_paths exactScorer fsTwo "vec" none 20 (by decide)⟩

/-- Claim C9: `list_available_docs` neither writes nor reads the catalog
caches — it passes the state through and its output is state-independent —
while `search_docs` on a built cache ignores everything of the tree except
root existence; concretely, creating the set `zig` after the cache was
built changes `list_available_docs` but not `search_docs`. -/
theorem C9_listDocs_cache_frame :
    (∀ (fs : FS) (st : CState), (list_available_docs fs st).2 = st) ∧
    (∀ (fs : FS) (st st' : CState),
      (list_available_docs fs st).1 = (list_available_docs fs st').1) ∧
    (∀ (scorer : Scorer) (fs fs' : FS) (query : String) (ds : Option String)
      (limit : Int) (st : CState), st.allFiles.isSome = true →
      fs.rootExists = true → fs'.rootExists = true →
      (search_docs scorer fs query ds limit st).1 =
        (search_docs scorer fs' query ds limit st).1) ∧
    (list_available_docs fsB (build_file_cache fsA initState)).1 ≠
      (list_available_docs fsA (build_file_cache fsA initState)).1 := by
  refine ⟨fun fs st => rfl, fun fs st st' => rfl, ?_, by decide⟩
  intro scorer fs fs' query ds limit st hsome hr hr'
  simp only [search_docs]
  simp only [build_file_cache_of_isSome hsome]
  rw [hr, hr']

theorem C9_listDocs_cache_frame_witness :
    (search_docs exactScorer fsA "list" none 20
        (build_file_cache fsA initState)).1 =
      (search_docs exactScorer fsB "list" none 20
        (build_file_cache fsA initState)).1 :=
  C9_listDocs_cache_frame.2.2.1 exactScorer fsA fsB "list" none 20
    (build_file_cache fsA initState) (by decide) (by decide) (by decide)

/-- Claim C10: the fuzzy fallback of `read_doc` enumerates HTML files that
cache construction skips — files inside hidden immediate subdirectories
and files not contained in any set directory — so in `fsHidden` and
`fsLoose` a file that no `search_docs` call can ever return is still
resolvable by the fallback. -/
theorem C10_hidden_files_fallback_only (scorer : Scorer)
    (hsec : 70 < scorer "secret" "secret")
    (hread : 70 < scorer "readme" "readme") :
    read_doc_resolved scorer fsHidden "secret" true =
        some ".archive/secret.html" ∧
    read_doc_resolved scorer fsLoose "readme" true = some "readme.html" ∧
    (∀ (scorer2 : Scorer) (query : String) (ds : Option String) (limit : Int),
      (search_docs scorer2 fsHidden query ds limit initState).1 = []) ∧
    (∀ (scorer2 : Scorer) (query : String) (ds : Option String) (limit : Int),
      (search_docs scorer2 fsLoose query ds limit initState).1 = []) := by
  refine ⟨?_, ?_, ?_, ?_⟩
  · have hext : extractOne scorer "secret"
        (fsHidden.rootHtml.map (fun f => normalize_stem (stemOf f.rel))) =
          some ("secret", scorer "secret" "secret") := by
      rw [show fsHidden.rootHtml.map (fun f => normalize_stem (stemOf f.rel)) =
        ["secret"] from by decide]
      rfl
    rw [fallback_first_match scorer fsHidden "secret" "secret" _ (by decide)
      (by decide) (by decide) hext]
    rw [if_pos hsec]
    rw [show fsHidden.rootHtml.find?
        (fun f => normalize_stem (stemOf f.rel) == "secret") =
          some ⟨".archive/secret.html", "<html>s</html>"⟩ from by decide]
    decide
  · have hext : extractOne scorer "readme"
        (fsLoose.rootHtml.map (fun f => normalize_stem (stemOf f.rel))) =
          some ("readme", scorer "readme" "readme") := by
      rw [show fsLoose.rootHtml.map (fun f => normalize_stem (stemOf f.rel)) =
        ["readme"] from by decide]
      rfl
    rw [fallback_first_match scorer fsLoose "readme" "readme" _ (by decide)
      (by decide) (by decide) hext]
    rw [if_pos hread]
    rw [show fsLoose.rootHtml.find?
        (fun f => normalize_stem (stemOf f.rel) == "readme") =
          some ⟨"readme.html", "<html>r</html>"⟩ from by decide]
    decide
  · exact fun scorer2 query ds limit =>
      search_docs_empty_cache scorer2 fsHidden query ds limit (by decide)
  · exact fun scorer2 query ds limit =>
      search_docs_empty_cache scorer2 fsLoose query ds limit (by decide)

theorem C10_hidden_files_fallback_only_witness :
    read_doc_resolved exactScorer fsHidden "secret" true =
        some ".archive/secret.html" ∧
    (search_docs exactScorer fsHidden "secret" none 20 initState).1 = [] :=
  ⟨(C10_hidden_files_fallback_only exactScorer (by decide) (by decide)).1,
   (C10_hidden_files_fallback_only exactScorer (by decide) (by decide)).2.2.1
     exactScorer "secret" none 20⟩
